import Mathlib

/-!
Verification of the daily-word pipeline in scripts/fetch_daily_definitions.py.

The script builds a pool of 4/5/6-letter words (valid_words.json minus the
level words of words.json), then resolves one plain-English definition per
pool word from WordNet and writes a sorted, compact JSON object.

The embedding below models:
  - Python str.upper / str.lower as a character-wise map (faithful for the
    ASCII word lists the script processes);
  - the WordNet database as a function from a word to its list of synsets,
    each synset carrying its lemma names and its definition text;
  - the JSON layer (json.load over a decoded character stream, including
    the utf-8 versus utf-8-sig distinction between the two input files).
-/

namespace WordJourney

/-- Character-wise embedding of Python str.upper (exact on ASCII input). -/
def pyUpper (s : String) : String := ⟨s.data.map Char.toUpper⟩

/-- Character-wise embedding of Python str.lower (exact on ASCII input). -/
def pyLower (s : String) : String := ⟨s.data.map Char.toLower⟩

/-! ### WordNet model and best_definition -/

/-- One WordNet synset: the lemma names attached to the synset and its
definition text. Mirrors the two accessors the script uses,
s.lemmas() (taking l.name() of each) and s.definition(). -/
structure Synset where
  lemmas : List String
  defn : String
deriving DecidableEq

/-- The WordNet database as used by the script: wordnet.synsets(w) returns
the candidate synsets of w in native ranking order. -/
structure WordNet where
  synsets : String → List Synset

/-- The fixed prefix list PROPER_NOUN_PREFIXES of the script. -/
def PROPER_NOUN_PREFIXES : List String :=
  ["united states",
   "english ",
   "british ",
   "us ",
   "an american",
   "american ",
   "scottish ",
   "french ",
   "german ",
   "swiss ",
   "italian ",
   "dutch ",
   "spanish ",
   "greek ",
   "roman ",
   "latin ",
   "danish ",
   "irish ",
   "jewish ",
   "a member of ",
   "a native of ",
   "a follower of ",
   "a person who ",
   "a person born"]

/-- Embedding of Python str.startswith: the pattern is a prefix of the
string (stated on the character lists). -/
def pyStartsWith (s p : String) : Bool :=
  p.data.isPrefixOf s.data

/-- Test used inside best_definition: defn.lower().startswith(p) for some
p in PROPER_NOUN_PREFIXES. -/
def isProperNoun (d : String) : Bool :=
  PROPER_NOUN_PREFIXES.any (fun p => pyStartsWith (pyLower d) p)

/-- Synsets of word whose own lemma names (lowercased) contain the word:
the local direct of best_definition. -/
def directSyns (wn : WordNet) (word : String) : List Synset :=
  (wn.synsets word).filter (fun s => (s.lemmas.map pyLower).contains word)

/-- The local candidates of best_definition: direct if nonempty, else all
synsets. -/
def candidatesOf (wn : WordNet) (word : String) : List Synset :=
  if (directSyns wn word).isEmpty then wn.synsets word else directSyns wn word

/-- Embedding of best_definition: first candidate definition passing the
proper-noun filter, else the first candidate definition, else none when no
synsets exist. -/
def best_definition (wn : WordNet) (word : String) : Option String :=
  if (wn.synsets word).isEmpty then none
  else
    match (candidatesOf wn word).find? (fun s => !(isProperNoun s.defn)) with
    | some s => some s.defn
    | none => (candidatesOf wn word).head?.map Synset.defn

/-! ### Pool builder -/

/-- One entry of words.json: an object with at least a word field; the
script reads only obj["word"]. -/
structure LevelEntry where
  word : String
deriving DecidableEq

/-- Parsed valid_words.json: an object from length key to an array of word
strings, modelled as an association list in document order. -/
abbrev ValidRoot := List (String × List String)

/-- Parsed words.json: an object from length key to an array of level
entries. -/
abbrev LevelRoot := List (String × List LevelEntry)

/-- The value of valid_root.get(length, []): the bucket for a length key,
empty when the key is absent. -/
def bucket (valid : ValidRoot) (len : String) : List String :=
  (List.lookup len valid).getD []

/-- All level-word strings, uppercased: the excluded set of
build_daily_pool, gathered across every length bucket of words.json. -/
def excludedList (level : LevelRoot) : List String :=
  level.flatMap (fun kv => kv.2.map (fun o => pyUpper o.word))

/-- The three target length keys of the daily pool. -/
def targetLengths : List String := ["4", "5", "6"]

/-- Embedding of build_daily_pool on parsed inputs: uppercase words of the
buckets 4, 5, 6 of valid_words.json that are not uppercase level words. -/
def build_daily_pool (valid : ValidRoot) (level : LevelRoot) : Finset String :=
  ((targetLengths.flatMap (fun len => (bucket valid len).map pyUpper)).filter
    (fun uw => !((excludedList level).contains uw))).toFinset

/-! ### Batch driver of main -/

/-- Accumulator of the driver loop of main: the definitions collected so
far (in insertion order) and the no_def_count counter. -/
structure RunState where
  defs : List (String × String)
  misses : Nat
deriving DecidableEq

/-- One iteration of the driver loop: resolve word.lower(); a truthy
(nonempty) definition is recorded under the word, otherwise the miss
counter advances. -/
def processWord (wn : WordNet) (st : RunState) (word : String) : RunState :=
  match best_definition wn (pyLower word) with
  | some d => if d = "" then ⟨st.defs, st.misses + 1⟩ else ⟨st.defs ++ [(word, d)], st.misses⟩
  | none => ⟨st.defs, st.misses + 1⟩

/-- The pool in the deterministic iteration order of main: sorted(pool). -/
def wordsSorted (pool : Finset String) : List String :=
  pool.sort (· ≤ ·)

/-- The driver loop of main over the whole sorted pool. -/
def runResolver (wn : WordNet) (pool : Finset String) : RunState :=
  (wordsSorted pool).foldl (processWord wn) ⟨[], 0⟩

/-- Python tuple comparison on (key, value) pairs, as used by
sorted(definitions.items()). -/
def pairLe (a b : String × String) : Prop :=
  a.1 < b.1 ∨ (a.1 = b.1 ∧ a.2 ≤ b.2)

instance : DecidableRel pairLe := fun a b => by
  unfold pairLe
  infer_instance

instance : IsTotal (String × String) pairLe := by
  constructor
  intro a b
  rcases lt_trichotomy a.1 b.1 with h | h | h
  · exact Or.inl (Or.inl h)
  · rcases le_total a.2 b.2 with h2 | h2
    · exact Or.inl (Or.inr ⟨h, h2⟩)
    · exact Or.inr (Or.inr ⟨h.symm, h2⟩)
  · exact Or.inr (Or.inl h)

instance : IsTrans (String × String) pairLe := by
  constructor
  intro a b c hab hbc
  rcases hab with hab | ⟨hab, hab2⟩
  · rcases hbc with hbc | ⟨hbc, _⟩
    · exact Or.inl (hab.trans hbc)
    · exact Or.inl (hbc ▸ hab)
  · rcases hbc with hbc | ⟨hbc, hbc2⟩
    · exact Or.inl (hab ▸ hbc)
    · exact Or.inr ⟨hab.trans hbc, hab2.trans hbc2⟩

/-- The object written to daily_word_definitions.json:
dict(sorted(definitions.items())), the collected definitions sorted by
Python tuple order (a stable sort, modelled by insertion sort). -/
def orderedOutput (wn : WordNet) (pool : Finset String) : List (String × String) :=
  List.insertionSort pairLe (runResolver wn pool).defs

/-- Classification of one driver iteration as the entry it contributes to
the definition map, if any. -/
def emit (wn : WordNet) (word : String) : Option (String × String) :=
  match best_definition wn (pyLower word) with
  | some d => if d = "" then none else some (word, d)
  | none => none

/-- Small concrete WordNet database used to exercise the theorems on
concrete inputs. -/
def wnEx : WordNet :=
  ⟨fun w =>
    if w = "crane" then
      [⟨["Crane"], "United States writer"⟩,
       ⟨["crane"], "a large wading bird"⟩]
    else if w = "care" then
      [⟨["care", "attention"], "feel concern or interest"⟩]
    else if w = "zeta" then
      [⟨["alpha"], "the first letter of the Greek alphabet"⟩]
    else []⟩

/-- The uppercase image of the three target buckets of valid_words.json,
as a set. -/
def validTargetUpper (valid : ValidRoot) : Finset String :=
  (targetLengths.flatMap (fun len => (bucket valid len).map pyUpper)).toFinset

/-- The uppercase level words as a set. -/
def excludedUpper (level : LevelRoot) : Finset String :=
  (excludedList level).toFinset

/-- Concrete valid_words input of the worked example of the spec. -/
def validEx : ValidRoot := [("4", ["CARE", "GLOW"])]

/-- Concrete words.json input of the worked example of the spec. -/
def levelEx : LevelRoot := [("4", [⟨"glow"⟩])]

/-! ### JSON layer

The script reads valid_words.json with encoding utf-8 and words.json with
encoding utf-8-sig, then parses each with json.load. The parser below
embeds the JSON grammar accepted by json.load on a decoded character
stream; a lone surrogate escape is the one simplification (json.load maps
surrogate pairs onto one character, the model maps an unpaired surrogate
onto the null character), which no word-list input contains. -/

/-- A parsed JSON value. Numbers keep their lexeme, which the script never
inspects. -/
inductive JVal where
  | null
  | bool (b : Bool)
  | num (lexeme : String)
  | str (s : String)
  | arr (elems : List JVal)
  | obj (members : List (String × JVal))

/-- JSON whitespace: space, tab, line feed, carriage return. -/
def jsonWs (c : Char) : Bool :=
  c == ' ' || c == '\t' || c == '\n' || c == '\r'

/-- Drop leading JSON whitespace. -/
def skipWs : List Char → List Char
  | [] => []
  | c :: cs => if jsonWs c then skipWs cs else c :: cs

/-- Value of one hexadecimal digit. -/
def hexVal (c : Char) : Option Nat :=
  if '0' ≤ c ∧ c ≤ '9' then some (c.toNat - 48)
  else if 'a' ≤ c ∧ c ≤ 'f' then some (c.toNat - 87)
  else if 'A' ≤ c ∧ c ≤ 'F' then some (c.toNat - 55)
  else none

/-- Parse the remainder of a JSON string literal after its opening quote,
with the escape sequences of the JSON grammar. -/
def parseStringRest : Nat → List Char → List Char → Option (String × List Char)
  | 0, _, _ => none
  | _ + 1, _, [] => none
  | fuel + 1, acc, c :: cs =>
    if c = '"' then some (⟨acc.reverse⟩, cs)
    else if c = '\\' then
      match cs with
      | [] => none
      | e :: cs2 =>
        if e = '"' then parseStringRest fuel ('"' :: acc) cs2
        else if e = '\\' then parseStringRest fuel ('\\' :: acc) cs2
        else if e = '/' then parseStringRest fuel ('/' :: acc) cs2
        else if e = 'b' then parseStringRest fuel ('\x08' :: acc) cs2
        else if e = 'f' then parseStringRest fuel ('\x0c' :: acc) cs2
        else if e = 'n' then parseStringRest fuel ('\n' :: acc) cs2
        else if e = 'r' then parseStringRest fuel ('\r' :: acc) cs2
        else if e = 't' then parseStringRest fuel ('\t' :: acc) cs2
        else if e = 'u' then
          match cs2 with
          | h1 :: h2 :: h3 :: h4 :: cs3 =>
            match hexVal h1, hexVal h2, hexVal h3, hexVal h4 with
            | some a, some b, some c2, some d2 =>
              parseStringRest fuel (Char.ofNat (((a * 16 + b) * 16 + c2) * 16 + d2) :: acc) cs3
            | _, _, _, _ => none
          | _ => none
        else none
    else if c.toNat < 32 then none
    else parseStringRest fuel (c :: acc) cs

/-- Take a maximal run of decimal digits. -/
def takeDigits : List Char → List Char × List Char
  | [] => ([], [])
  | c :: cs =>
    if c.isDigit then
      match takeDigits cs with
      | (ds, rest) => (c :: ds, rest)
    else ([], c :: cs)

/-- Integer part of a JSON number: 0, or a nonzero leading digit run. -/
def parseIntPart : List Char → Option (List Char × List Char)
  | '0' :: cs => some (['0'], cs)
  | c :: cs => if c.isDigit then some (takeDigits (c :: cs)) else none
  | [] => none

/-- Optional fraction part of a JSON number. -/
def parseFracPart : List Char → Option (List Char × List Char)
  | '.' :: cs =>
    match takeDigits cs with
    | ([], _) => none
    | (ds, rest) => some ('.' :: ds, rest)
  | cs => some ([], cs)

/-- Optional exponent part of a JSON number. -/
def parseExpPart : List Char → Option (List Char × List Char)
  | c :: cs =>
    if c == 'e' || c == 'E' then
      match cs with
      | '+' :: cs2 =>
        match takeDigits cs2 with
        | ([], _) => none
        | (ds, rest) => some (c :: '+' :: ds, rest)
      | '-' :: cs2 =>
        match takeDigits cs2 with
        | ([], _) => none
        | (ds, rest) => some (c :: '-' :: ds, rest)
      | cs2 =>
        match takeDigits cs2 with
        | ([], _) => none
        | (ds, rest) => some (c :: ds, rest)
    else some ([], c :: cs)
  | [] => some ([], [])

/-- A whole JSON number, kept as its lexeme. -/
def parseNumber (cs : List Char) : Option (String × List Char) :=
  let (sgn, cs1) :=
    match cs with
    | '-' :: r => ((['-'] : List Char), r)
    | _ => ([], cs)
  match parseIntPart cs1 with
  | none => none
  | some (ip, cs2) =>
    match parseFracPart cs2 with
    | none => none
    | some (fp, cs3) =>
      match parseExpPart cs3 with
      | none => none
      | some (ep, cs4) => some (⟨sgn ++ ip ++ fp ++ ep⟩, cs4)

/-- Expect a fixed literal tail such as rue after t. -/
def stripLit (lit : List Char) (cs : List Char) : Option (List Char) :=
  if lit.isPrefixOf cs then some (cs.drop lit.length) else none

/-- Mode of the recursive descent: a value, the remaining elements of an
array, or the remaining members of an object. -/
inductive PMode where
  | value
  | elems (acc : List JVal)
  | members (acc : List (String × JVal))

/-- Fuel-indexed recursive descent over the JSON grammar of json.load.
The fuel only bounds recursion depth; parseJson supplies enough fuel for
any input. -/
def parseCore : Nat → PMode → List Char → Option (JVal × List Char)
  | 0, _, _ => none
  | fuel + 1, .value, cs =>
    match skipWs cs with
    | [] => none
    | c :: rest =>
      if c = '\x7b' then
        match skipWs rest with
        | '\x7d' :: rest2 => some (.obj [], rest2)
        | _ => parseCore fuel (.members []) rest
      else if c = '[' then
        match skipWs rest with
        | ']' :: rest2 => some (.arr [], rest2)
        | _ => parseCore fuel (.elems []) rest
      else if c = '"' then
        match parseStringRest (rest.length + 1) [] rest with
        | some (s, rest2) => some (.str s, rest2)
        | none => none
      else if c = 't' then (stripLit ['r', 'u', 'e'] rest).map (fun r => (.bool true, r))
      else if c = 'f' then (stripLit ['a', 'l', 's', 'e'] rest).map (fun r => (.bool false, r))
      else if c = 'n' then (stripLit ['u', 'l', 'l'] rest).map (fun r => (.null, r))
      else if c = '-' ∨ c.isDigit then
        match parseNumber (c :: rest) with
        | some (s, rest2) => some (.num s, rest2)
        | none => none
      else none
  | fuel + 1, .elems acc, cs =>
    match parseCore fuel .value cs with
    | none => none
    | some (v, rest) =>
      match skipWs rest with
      | ',' :: rest2 => parseCore fuel (.elems (v :: acc)) rest2
      | ']' :: rest2 => some (.arr (v :: acc).reverse, rest2)
      | _ => none
  | fuel + 1, .members acc, cs =>
    match skipWs cs with
    | '"' :: rest =>
      match parseStringRest (rest.length + 1) [] rest with
      | none => none
      | some (k, rest1) =>
        match skipWs rest1 with
        | ':' :: rest2 =>
          match parseCore fuel .value rest2 with
          | none => none
          | some (v, rest3) =>
            match skipWs rest3 with
            | ',' :: rest4 => parseCore fuel (.members ((k, v) :: acc)) rest4
            | '\x7d' :: rest4 => some (.obj ((k, v) :: acc).reverse, rest4)
            | _ => none
        | _ => none
    | _ => none

/-- Embedding of json.load on a decoded character stream: one JSON
document, with only whitespace after it. -/
def parseJson (cs : List Char) : Option JVal :=
  match parseCore (2 * cs.length + 2) .value cs with
  | some (v, rest) => if (skipWs rest).isEmpty then some v else none
  | none => none

/-- Reading a file with encoding utf-8 keeps a byte-order mark as a
leading U+FEFF character. -/
def readUtf8 (content : List Char) : List Char := content

/-- Reading a file with encoding utf-8-sig drops one leading U+FEFF. -/
def readUtf8Sig (cs : List Char) : List Char :=
  match cs with
  | [] => []
  | c :: rest => if c = '\uFEFF' then rest else c :: rest

/-- A JSON array of strings, as expected for each valid_words bucket. -/
def asWordArray : JVal → Option (List String)
  | .arr xs => xs.mapM (fun j => match j with | .str s => some s | _ => none)
  | _ => none

/-- Shape of valid_words.json: an object of word arrays. -/
def decodeValidRoot : JVal → Option ValidRoot
  | .obj kvs => kvs.mapM (fun kv => (asWordArray kv.2).map (fun ws => (kv.1, ws)))
  | _ => none

/-- Shape of one words.json item: an object with a word string field. -/
def decodeLevelEntry : JVal → Option LevelEntry
  | .obj fields =>
    match fields.lookup "word" with
    | some (.str w) => some ⟨w⟩
    | _ => none
  | _ => none

/-- Shape of words.json: an object of arrays of entries. -/
def decodeLevelRoot : JVal → Option LevelRoot
  | .obj kvs => kvs.mapM (fun kv =>
      match kv.2 with
      | .arr items => (items.mapM decodeLevelEntry).map (fun es => (kv.1, es))
      | _ => none)
  | _ => none

/-- File-level build_daily_pool: valid_words.json is decoded as utf-8,
words.json as utf-8-sig, both go through json.load, and the pool is built;
none models the unhandled fault that aborts the run. -/
def build_daily_pool_from_files (validContent levelContent : List Char) :
    Option (Finset String) :=
  match parseJson (readUtf8 validContent) with
  | none => none
  | some jv =>
    match parseJson (readUtf8Sig levelContent) with
    | none => none
    | some jl =>
      match decodeValidRoot jv with
      | none => none
      | some valid =>
        match decodeLevelRoot jl with
        | none => none
        | some level => some (build_daily_pool valid level)

/-- The character stream of an empty JSON object. -/
def emptyObj : List Char := ['\x7b', '\x7d']

/-! ### Theorems -/

/-- Unfolded form of Char.toUpper. -/
theorem toUpper_def (x : Char) :
    Char.toUpper x =
      if 97 ≤ x.toNat ∧ x.toNat ≤ 122 then Char.ofNat (x.toNat - 32) else x :=
  rfl

/-- Char.ofNat inverts toNat on valid code points. -/
theorem char_toNat_ofNat_valid {n : Nat} (h : n.isValidChar) :
    (Char.ofNat n).toNat = n := by
  unfold Char.ofNat
  rw [dif_pos h]
  rfl

/-- Code point of an uppercased character. -/
theorem toUpper_toNat (c : Char) :
    (Char.toUpper c).toNat =
      if 97 ≤ c.toNat ∧ c.toNat ≤ 122 then c.toNat - 32 else c.toNat := by
  rw [toUpper_def]
  by_cases h : 97 ≤ c.toNat ∧ c.toNat ≤ 122
  · rw [if_pos h, if_pos h]
    exact char_toNat_ofNat_valid (Or.inl (by omega))
  · rw [if_neg h, if_neg h]

/-- Uppercasing a character twice equals uppercasing it once. -/
theorem toUpper_idem (c : Char) :
    Char.toUpper (Char.toUpper c) = Char.toUpper c := by
  have ht := toUpper_toNat c
  rw [toUpper_def (Char.toUpper c)]
  by_cases h : 97 ≤ c.toNat ∧ c.toNat ≤ 122
  · rw [if_pos h] at ht
    rw [if_neg (by omega)]
  · rw [if_neg h] at ht
    rw [if_neg (by omega)]

/-- Python upper is idempotent on strings. -/
theorem pyUpper_idem (s : String) : pyUpper (pyUpper s) = pyUpper s := by
  unfold pyUpper
  show String.mk (List.map Char.toUpper (List.map Char.toUpper s.data)) =
    String.mk (List.map Char.toUpper s.data)
  rw [List.map_map]
  exact congrArg String.mk (List.map_congr_left (fun a _ => toUpper_idem a))

/-- Python upper preserves string length. -/
theorem length_pyUpper (s : String) : (pyUpper s).length = s.length := by
  unfold pyUpper
  show (List.map Char.toUpper s.data).length = s.data.length
  rw [List.length_map]

/-- List.find? returns the element at the first index satisfying the
predicate. -/
theorem find?_first_index {α : Type} {p : α → Bool} :
    ∀ (l : List α) (i : Nat) (hi : i < l.length),
      p (l.get ⟨i, hi⟩) = true →
      (∀ j, (hj : j < i) → p (l.get ⟨j, Nat.lt_trans hj hi⟩) = false) →
      l.find? p = some (l.get ⟨i, hi⟩) := by
  intro l
  induction l with
  | nil => intro i hi _ _; simp at hi
  | cons a l ih =>
    intro i hi hp hb
    cases i with
    | zero =>
      simp only [List.get] at hp
      simp [hp]
    | succ i =>
      have ha : p a = false := hb 0 (Nat.succ_pos i)
      have hi' : i < l.length := Nat.lt_of_succ_lt_succ hi
      have hrec := ih i hi' (by simpa using hp)
        (fun j hj => by simpa using hb (j + 1) (Nat.succ_lt_succ hj))
      simp [List.find?_cons, ha, hrec]

/-- Unfolding of best_definition when the synset list is nonempty. -/
theorem best_definition_eq_of_ne {wn : WordNet} {w : String}
    (h : wn.synsets w ≠ []) :
    best_definition wn w =
      match (candidatesOf wn w).find? (fun s => !(isProperNoun s.defn)) with
      | some s => some s.defn
      | none => (candidatesOf wn w).head?.map Synset.defn := by
  unfold best_definition
  rw [if_neg (by simpa using h)]

/-- Candidates are the direct synsets when some direct synset exists. -/
theorem candidatesOf_eq_direct {wn : WordNet} {w : String}
    (h : directSyns wn w ≠ []) :
    candidatesOf wn w = directSyns wn w := by
  unfold candidatesOf
  rw [if_neg (by simpa using h)]

/-- Candidates fall back to all synsets when no direct synset exists. -/
theorem candidatesOf_eq_synsets {wn : WordNet} {w : String}
    (h : directSyns wn w = []) :
    candidatesOf wn w = wn.synsets w := by
  unfold candidatesOf
  rw [if_pos (by simpa using h)]

/-- A nonempty direct list forces a nonempty synset list. -/
theorem synsets_ne_of_direct_ne {wn : WordNet} {w : String}
    (h : directSyns wn w ≠ []) : wn.synsets w ≠ [] := by
  intro hs
  apply h
  unfold directSyns
  rw [hs]
  rfl

/-- The candidate list is nonempty whenever the synset list is. -/
theorem candidatesOf_ne_nil {wn : WordNet} {w : String}
    (h : wn.synsets w ≠ []) : candidatesOf wn w ≠ [] := by
  unfold candidatesOf
  split
  · exact h
  · next hne => simpa using hne

/-- When synsets exist, best_definition picks the definition of some
candidate. -/
theorem best_definition_mem {wn : WordNet} {w : String}
    (h : wn.synsets w ≠ []) :
    ∃ s ∈ candidatesOf wn w, best_definition wn w = some s.defn := by
  have heq := best_definition_eq_of_ne h
  cases hf : (candidatesOf wn w).find? (fun s => !(isProperNoun s.defn)) with
  | some s =>
    refine ⟨s, List.mem_of_find?_eq_some hf, ?_⟩
    rw [heq, hf]
  | none =>
    cases hcs : candidatesOf wn w with
    | nil => exact absurd hcs (candidatesOf_ne_nil h)
    | cons c rest =>
      refine ⟨c, ?_, ?_⟩
      · simp [hcs]
      · rw [heq, hf, hcs]
        rfl

/-- When synsets exist, best_definition returns some definition. -/
theorem best_definition_isSome {wn : WordNet} {w : String}
    (h : wn.synsets w ≠ []) :
    ∃ d, best_definition wn w = some d := by
  obtain ⟨s, _, hs⟩ := best_definition_mem h
  exact ⟨s.defn, hs⟩

/-- C4: best_definition returns none exactly when the database has no
candidate senses for the word; with at least one sense it always returns
some definition string. -/
theorem best_definition_none_iff (wn : WordNet) (w : String) :
    best_definition wn w = none ↔ wn.synsets w = [] := by
  constructor
  · intro h
    by_contra hne
    obtain ⟨d, hd⟩ := best_definition_isSome hne
    rw [h] at hd
    exact Option.noConfusion hd
  · intro h
    unfold best_definition
    rw [if_pos (by simpa using h)]

/-- C2: with a nonempty preferred candidate set, best_definition returns
the definition of the first candidate, in database order, whose definition
does not start with a proper-noun prefix; if every candidate is filtered
out it returns the first candidate definition anyway. -/
theorem best_definition_first_unfiltered (wn : WordNet) (w : String)
    (h : wn.synsets w ≠ []) :
    (∀ i, ∀ hi : i < (candidatesOf wn w).length,
      isProperNoun ((candidatesOf wn w).get ⟨i, hi⟩).defn = false →
      (∀ j, (hj : j < i) →
        isProperNoun ((candidatesOf wn w).get ⟨j, Nat.lt_trans hj hi⟩).defn = true) →
      best_definition wn w = some ((candidatesOf wn w).get ⟨i, hi⟩).defn)
    ∧ ((∀ s ∈ candidatesOf wn w, isProperNoun s.defn = true) →
      ∀ c, (candidatesOf wn w).head? = some c →
      best_definition wn w = some c.defn) := by
  have heq := best_definition_eq_of_ne h
  constructor
  · intro i hi hgood hbefore
    have hfind := find?_first_index (p := fun s => !(isProperNoun s.defn))
      (candidatesOf wn w) i hi (by simpa using hgood)
      (fun j hj => by simpa using hbefore j hj)
    rw [heq, hfind]
  · intro hall c hc
    have hfind : (candidatesOf wn w).find? (fun s => !(isProperNoun s.defn)) = none := by
      rw [List.find?_eq_none]
      intro x hx
      simp [hall x hx]
    rw [heq, hfind]
    simp [hc]

/-- Witness for C2 on the concrete database: the first sense of crane is a
proper-noun definition, so the second one is returned. -/
theorem best_definition_first_unfiltered_witness :
    best_definition wnEx "crane" = some "a large wading bird" := by
  have hi : 1 < (candidatesOf wnEx "crane").length := by decide
  have h := (best_definition_first_unfiltered wnEx "crane" (by decide)).1 1 hi
    (by
      show isProperNoun ((candidatesOf wnEx "crane").get ⟨1, by decide⟩).defn = false
      decide)
    (fun j hj => by
      have hj0 : j = 0 := Nat.lt_one_iff.mp hj
      subst hj0
      show isProperNoun ((candidatesOf wnEx "crane").get ⟨0, by decide⟩).defn = true
      decide)
  refine h.trans ?_
  show some ((candidatesOf wnEx "crane").get ⟨1, by decide⟩).defn = some "a large wading bird"
  decide

/-- C3: when direct senses exist the returned definition belongs to a
direct sense; otherwise selection falls back to the full synset list. -/
theorem best_definition_prefers_direct (wn : WordNet) (w : String) :
    (directSyns wn w ≠ [] →
      ∃ s ∈ directSyns wn w, best_definition wn w = some s.defn)
    ∧ (directSyns wn w = [] → wn.synsets w ≠ [] →
      ∃ s ∈ wn.synsets w, best_definition wn w = some s.defn) := by
  constructor
  · intro hd
    have hs := synsets_ne_of_direct_ne hd
    have hmem := best_definition_mem hs
    rwa [candidatesOf_eq_direct hd] at hmem
  · intro hd hs
    have hmem := best_definition_mem hs
    rwa [candidatesOf_eq_synsets hd] at hmem

/-- Witness for C3 on the concrete database: care has a direct sense and
the chosen definition comes from a direct sense. -/
theorem best_definition_prefers_direct_witness :
    ∃ s ∈ directSyns wnEx "care", best_definition wnEx "care" = some s.defn :=
  (best_definition_prefers_direct wnEx "care").1 (by decide)

/-- Pool membership characterised on the list level. -/
theorem mem_build_daily_pool {valid : ValidRoot} {level : LevelRoot} {x : String} :
    x ∈ build_daily_pool valid level ↔
      (∃ len ∈ targetLengths, ∃ w ∈ bucket valid len, pyUpper w = x)
      ∧ x ∉ excludedList level := by
  unfold build_daily_pool
  rw [List.mem_toFinset, List.mem_filter]
  simp only [List.contains, List.mem_flatMap, List.mem_map, Bool.not_eq_true',
    ← Bool.not_eq_true, List.elem_iff]

/-- C1: the pool is exactly the set difference of the uppercased target
buckets of the valid list and the uppercased level words; consequently
every level word is absent and every non-excluded target-bucket word is
present. -/
theorem build_daily_pool_eq_sdiff (valid : ValidRoot) (level : LevelRoot) :
    build_daily_pool valid level = validTargetUpper valid \ excludedUpper level
    ∧ (∀ kv ∈ level, ∀ e ∈ kv.2, pyUpper e.word ∉ build_daily_pool valid level)
    ∧ (∀ len ∈ targetLengths, ∀ w ∈ bucket valid len,
        pyUpper w ∉ excludedUpper level → pyUpper w ∈ build_daily_pool valid level) := by
  have hmain : build_daily_pool valid level = validTargetUpper valid \ excludedUpper level := by
    ext x
    rw [mem_build_daily_pool, Finset.mem_sdiff]
    unfold validTargetUpper excludedUpper
    simp [List.mem_flatMap]
  refine ⟨hmain, ?_, ?_⟩
  · intro kv hkv e he hmem
    rw [hmain, Finset.mem_sdiff] at hmem
    apply hmem.2
    unfold excludedUpper excludedList
    rw [List.mem_toFinset, List.mem_flatMap]
    exact ⟨kv, hkv, List.mem_map.mpr ⟨e, he, rfl⟩⟩
  · intro len hlen w hw hnotex
    rw [hmain, Finset.mem_sdiff]
    refine ⟨?_, hnotex⟩
    unfold validTargetUpper
    rw [List.mem_toFinset, List.mem_flatMap]
    exact ⟨len, hlen, List.mem_map.mpr ⟨w, hw, rfl⟩⟩

/-- Witness for C1 on the worked example of the spec: glow is excluded and
CARE remains in the pool. -/
theorem build_daily_pool_eq_sdiff_witness :
    pyUpper "glow" ∉ build_daily_pool validEx levelEx
    ∧ pyUpper "CARE" ∈ build_daily_pool validEx levelEx := by
  constructor
  · exact (build_daily_pool_eq_sdiff validEx levelEx).2.1 ("4", [⟨"glow"⟩]) (by decide)
      ⟨"glow"⟩ (by decide)
  · exact (build_daily_pool_eq_sdiff validEx levelEx).2.2 "4" (by decide) "CARE"
      (by decide) (by decide)

/-- C8 amendment support: a missing target bucket behaves exactly like an
explicitly empty bucket. -/
theorem build_daily_pool_missing_bucket (valid : ValidRoot) (level : LevelRoot)
    (len : String) (hmiss : List.lookup len valid = none) :
    build_daily_pool valid level = build_daily_pool ((len, []) :: valid) level := by
  have hb : ∀ len', bucket ((len, []) :: valid) len' = bucket valid len' := by
    intro len'
    unfold bucket
    by_cases h : len' = len
    · subst h
      rw [hmiss]
      simp [List.lookup]
    · have hne : (len' == len) = false := by simpa using h
      simp [List.lookup, hne]
  unfold build_daily_pool
  simp only [hb]

/-- Witness for C8: with no bucket 4 in the valid list the pool equals the
pool of the same list extended with an empty bucket 4. -/
theorem build_daily_pool_missing_bucket_witness :
    build_daily_pool [("5", ["GLINT"])] [] =
      build_daily_pool [("4", []), ("5", ["GLINT"])] [] :=
  build_daily_pool_missing_bucket [("5", ["GLINT"])] [] "4" (by decide)

/-- Counterexample to C5 as stated: nothing checks that a word listed in a
bucket has the length of its key, so a pool element can have a length
outside 4, 5, 6. -/
theorem pool_length_counterexample :
    ¬ (∀ e ∈ build_daily_pool [("4", ["ab"])] [],
        e.length = 4 ∨ e.length = 5 ∨ e.length = 6) := by
  intro h
  have h2 := h "AB" (by decide)
  revert h2
  decide

/-- C5 amended: every pool element is an uppercase string (a fixed point
of upper), and when each target bucket only lists words of its key length
the element lengths are 4, 5 or 6. -/
theorem pool_elements_upper_and_length (valid : ValidRoot) (level : LevelRoot)
    (h4 : ∀ w ∈ bucket valid "4", w.length = 4)
    (h5 : ∀ w ∈ bucket valid "5", w.length = 5)
    (h6 : ∀ w ∈ bucket valid "6", w.length = 6) :
    ∀ e ∈ build_daily_pool valid level,
      pyUpper e = e ∧ (e.length = 4 ∨ e.length = 5 ∨ e.length = 6) := by
  intro e he
  rw [mem_build_daily_pool] at he
  obtain ⟨⟨len, hlen, w, hw, rfl⟩, -⟩ := he
  refine ⟨pyUpper_idem w, ?_⟩
  rw [length_pyUpper]
  have hlen3 : len = "4" ∨ len = "5" ∨ len = "6" := by simpa [targetLengths] using hlen
  rcases hlen3 with rfl | rfl | rfl
  · exact Or.inl (h4 w hw)
  · exact Or.inr (Or.inl (h5 w hw))
  · exact Or.inr (Or.inr (h6 w hw))

/-- Witness for the amended C5 at the worked example. -/
theorem pool_elements_upper_and_length_witness :
    pyUpper "CARE" = "CARE"
    ∧ (("CARE" : String).length = 4 ∨ ("CARE" : String).length = 5
        ∨ ("CARE" : String).length = 6) :=
  pool_elements_upper_and_length [("4", ["care"])] [] (by decide) (by decide) (by decide)
    "CARE" (by decide)

/-- Inversion of one driver iteration that records an entry. -/
theorem emit_eq_some {wn : WordNet} {w : String} {p : String × String}
    (h : emit wn w = some p) :
    p.1 = w ∧ best_definition wn (pyLower w) = some p.2 ∧ p.2 ≠ "" := by
  unfold emit at h
  cases hb : best_definition wn (pyLower w) with
  | some d =>
    rw [hb] at h
    dsimp only at h
    by_cases hd : d = ""
    · rw [if_pos hd] at h
      exact absurd h (by simp)
    · rw [if_neg hd] at h
      have hp := Option.some.inj h
      subst hp
      exact ⟨rfl, rfl, hd⟩
  | none =>
    rw [hb] at h
    exact absurd h (by simp)

/-- A driver iteration records an entry exactly when the resolver returns
a nonempty definition. -/
theorem emit_eq_some_iff {wn : WordNet} {w d : String} :
    emit wn w = some (w, d) ↔ best_definition wn (pyLower w) = some d ∧ d ≠ "" := by
  constructor
  · intro h
    exact ⟨(emit_eq_some h).2.1, (emit_eq_some h).2.2⟩
  · rintro ⟨hb, hd⟩
    unfold emit
    rw [hb]
    dsimp only
    rw [if_neg hd]

/-- The definitions accumulated by the driver loop are the emitted entries
of the processed words, in order. -/
theorem runState_defs_eq (wn : WordNet) :
    ∀ (ws : List String) (st : RunState),
      (ws.foldl (processWord wn) st).defs = st.defs ++ ws.filterMap (emit wn) := by
  intro ws
  induction ws with
  | nil => intro st; simp
  | cons w ws ih =>
    intro st
    rw [List.foldl_cons, ih]
    cases h : best_definition wn (pyLower w) with
    | some d =>
      by_cases hd : d = ""
      · simp [processWord, emit, h, hd, List.filterMap_cons]
      · simp [processWord, emit, h, hd, List.filterMap_cons]
    | none => simp [processWord, emit, h, List.filterMap_cons]

/-- Each driver iteration adds exactly one unit: an entry or a miss. -/
theorem runState_count (wn : WordNet) :
    ∀ (ws : List String) (st : RunState),
      (ws.foldl (processWord wn) st).defs.length + (ws.foldl (processWord wn) st).misses
        = st.defs.length + st.misses + ws.length := by
  intro ws
  induction ws with
  | nil => intro st; simp
  | cons w ws ih =>
    intro st
    rw [List.foldl_cons, ih]
    cases h : best_definition wn (pyLower w) with
    | some d =>
      by_cases hd : d = ""
      · simp only [processWord, h, if_pos hd, List.length_cons]
        omega
      · simp only [processWord, h, if_neg hd, List.length_append, List.length_cons,
          List.length_nil]
        omega
    | none =>
      simp only [processWord, h, List.length_cons]
      omega

/-- The recorded keys form a sublist of the processed words. -/
theorem emit_keys_sublist (wn : WordNet) :
    ∀ ws : List String, List.Sublist ((ws.filterMap (emit wn)).map Prod.fst) ws := by
  intro ws
  induction ws with
  | nil => simp
  | cons w ws ih =>
    rw [List.filterMap_cons]
    cases h : emit wn w with
    | none => exact ih.cons w
    | some p =>
      rw [List.map_cons, (emit_eq_some h).1]
      exact ih.cons₂ w

/-- C6: an entry appears in the written output exactly when its key is a
pool word whose resolved definition is that nonempty string; in
particular output keys are pool members and output values are nonempty. -/
theorem output_entries_iff (wn : WordNet) (pool : Finset String) (w d : String) :
    (w, d) ∈ orderedOutput wn pool ↔
      w ∈ pool ∧ best_definition wn (pyLower w) = some d ∧ d ≠ "" := by
  unfold orderedOutput
  rw [(List.perm_insertionSort pairLe _).mem_iff]
  unfold runResolver
  rw [runState_defs_eq]
  simp only [List.nil_append]
  rw [List.mem_filterMap]
  constructor
  · rintro ⟨a, ha, hemit⟩
    obtain ⟨h1, h2, h3⟩ := emit_eq_some hemit
    simp only at h1 h2 h3
    subst h1
    refine ⟨?_, h2, h3⟩
    rw [wordsSorted, Finset.mem_sort] at ha
    exact ha
  · rintro ⟨hw, hb, hd⟩
    refine ⟨w, ?_, emit_eq_some_iff.mpr ⟨hb, hd⟩⟩
    rw [wordsSorted, Finset.mem_sort]
    exact hw

/-- C7: the keys of the written output appear in strictly ascending
order. -/
theorem output_keys_strictly_sorted (wn : WordNet) (pool : Finset String) :
    (orderedOutput wn pool).Pairwise (fun a b => a.1 < b.1) := by
  have hsorted : (orderedOutput wn pool).Pairwise pairLe :=
    List.sorted_insertionSort pairLe _
  have hkeysub : List.Sublist (((runResolver wn pool).defs).map Prod.fst) (wordsSorted pool) := by
    unfold runResolver
    rw [runState_defs_eq]
    simp only [List.nil_append]
    exact emit_keys_sublist wn (wordsSorted pool)
  have hnodup : (((runResolver wn pool).defs).map Prod.fst).Nodup :=
    hkeysub.nodup (Finset.sort_nodup _ _)
  have hperm : (orderedOutput wn pool).Perm (runResolver wn pool).defs :=
    List.perm_insertionSort pairLe _
  have hnodup2 : ((orderedOutput wn pool).map Prod.fst).Nodup :=
    ((hperm.map Prod.fst).nodup_iff).mpr hnodup
  have hne : (orderedOutput wn pool).Pairwise (fun a b => a.1 ≠ b.1) :=
    List.pairwise_map.mp hnodup2
  refine (hsorted.and hne).imp ?_
  rintro a b ⟨hle, hneq⟩
  rcases hle with hlt | ⟨heq, _⟩
  · exact hlt
  · exact absurd heq hneq

/-- C10: after each processed prefix the recorded definitions plus the
miss counter account for exactly the words processed so far; at the end
they account for the whole pool, the recorded keys are distinct and each
belongs to the pool. -/
theorem driver_accounting (wn : WordNet) (pool : Finset String) :
    (∀ n, n ≤ pool.card →
      (((wordsSorted pool).take n).foldl (processWord wn) ⟨[], 0⟩).defs.length
        + (((wordsSorted pool).take n).foldl (processWord wn) ⟨[], 0⟩).misses = n)
    ∧ (runResolver wn pool).defs.length + (runResolver wn pool).misses = pool.card
    ∧ (((runResolver wn pool).defs).map Prod.fst).Nodup
    ∧ (∀ kv ∈ (runResolver wn pool).defs, kv.1 ∈ pool) := by
  have hlen : (wordsSorted pool).length = pool.card := Finset.length_sort _
  have hkeysub : List.Sublist (((runResolver wn pool).defs).map Prod.fst) (wordsSorted pool) := by
    unfold runResolver
    rw [runState_defs_eq]
    simp only [List.nil_append]
    exact emit_keys_sublist wn (wordsSorted pool)
  refine ⟨?_, ?_, hkeysub.nodup (Finset.sort_nodup _ _), ?_⟩
  · intro n hn
    rw [runState_count]
    simp only [List.length_nil]
    rw [List.length_take, hlen]
    omega
  · unfold runResolver
    rw [runState_count]
    simp [hlen]
  · intro kv hkv
    have hmem : kv.1 ∈ ((runResolver wn pool).defs).map Prod.fst :=
      List.mem_map.mpr ⟨kv, hkv, rfl⟩
    have := hkeysub.mem hmem
    rw [wordsSorted, Finset.mem_sort] at this
    exact this

/-- Witness for C10 at a singleton pool: one processed word is fully
accounted for. -/
theorem driver_accounting_witness :
    (((wordsSorted {"CARE"}).take 1).foldl (processWord wnEx) ⟨[], 0⟩).defs.length
      + (((wordsSorted {"CARE"}).take 1).foldl (processWord wnEx) ⟨[], 0⟩).misses = 1 :=
  (driver_accounting wnEx {"CARE"}).1 1 (by decide)

/-- A byte-order mark is not JSON whitespace. -/
theorem skipWs_feff (cs : List Char) : skipWs ('\uFEFF' :: cs) = '\uFEFF' :: cs := by
  show (if jsonWs '\uFEFF' then skipWs cs else '\uFEFF' :: cs) = '\uFEFF' :: cs
  rw [if_neg (by decide)]

/-- The parser rejects a document that starts with a byte-order mark. -/
theorem parseCore_feff (fuel : Nat) (cs : List Char) :
    parseCore fuel PMode.value ('\uFEFF' :: cs) = none := by
  cases fuel with
  | zero => rfl
  | succ f =>
    show (match skipWs ('\uFEFF' :: cs) with
      | [] => none
      | c :: rest =>
        if c = '\x7b' then
          match skipWs rest with
          | '\x7d' :: rest2 => some (JVal.obj [], rest2)
          | _ => parseCore f (PMode.members []) rest
        else if c = '[' then
          match skipWs rest with
          | ']' :: rest2 => some (JVal.arr [], rest2)
          | _ => parseCore f (PMode.elems []) rest
        else if c = '"' then
          match parseStringRest (rest.length + 1) [] rest with
          | some (s, rest2) => some (JVal.str s, rest2)
          | none => none
        else if c = 't' then (stripLit ['r', 'u', 'e'] rest).map (fun r => (JVal.bool true, r))
        else if c = 'f' then (stripLit ['a', 'l', 's', 'e'] rest).map (fun r => (JVal.bool false, r))
        else if c = 'n' then (stripLit ['u', 'l', 'l'] rest).map (fun r => (JVal.null, r))
        else if c = '-' ∨ c.isDigit then
          match parseNumber (c :: rest) with
          | some (s, rest2) => some (JVal.num s, rest2)
          | none => none
        else none) = none
    rw [skipWs_feff]
    dsimp only
    rw [if_neg (show ¬('\uFEFF' = '\x7b') by decide)]
    rw [if_neg (show ¬('\uFEFF' = '[') by decide)]
    rw [if_neg (show ¬('\uFEFF' = '"') by decide)]
    rw [if_neg (show ¬('\uFEFF' = 't') by decide)]
    rw [if_neg (show ¬('\uFEFF' = 'f') by decide)]
    rw [if_neg (show ¬('\uFEFF' = 'n') by decide)]
    rw [if_neg (show ¬('\uFEFF' = '-' ∨ ('\uFEFF').isDigit = true) by decide)]

/-- json.load fails on a decoded stream that starts with a byte-order
mark. -/
theorem parseJson_feff (cs : List Char) : parseJson ('\uFEFF' :: cs) = none := by
  unfold parseJson
  rw [parseCore_feff]

/-- Decoding utf-8-sig strips a leading byte-order mark. -/
theorem readUtf8Sig_bom (cs : List Char) : readUtf8Sig ('\uFEFF' :: cs) = cs := by
  show (if '\uFEFF' = '\uFEFF' then cs else '\uFEFF' :: cs) = cs
  rw [if_pos rfl]

/-- On a stream that json.load accepts, utf-8-sig decoding is the
identity. -/
theorem readUtf8Sig_of_parses {cs : List Char} (h : (parseJson cs).isSome = true) :
    readUtf8Sig cs = cs := by
  cases cs with
  | nil => rfl
  | cons c rest =>
    by_cases hc : c = '\uFEFF'
    · subst hc
      rw [parseJson_feff] at h
      exact absurd h (by simp)
    · show (if c = '\uFEFF' then rest else c :: rest) = c :: rest
      rw [if_neg hc]

/-- Counterexample to C9 as stated: the empty JSON object parses in both
files, yet a byte-order mark on valid_words.json aborts the run because
that file is opened with plain utf-8, not utf-8-sig. -/
theorem pool_files_bom_counterexample :
    build_daily_pool_from_files emptyObj emptyObj = some ∅
    ∧ build_daily_pool_from_files ('\uFEFF' :: emptyObj) emptyObj = none := by
  constructor
  · decide
  · decide

/-- C9 amended: words.json may carry a byte-order mark (the run is
unchanged), but valid_words.json must be plain utf-8: with a byte-order
mark the run aborts. -/
theorem pool_files_bom_behavior (validContent levelContent : List Char)
    (hl : (parseJson levelContent).isSome = true) :
    build_daily_pool_from_files validContent ('\uFEFF' :: levelContent)
      = build_daily_pool_from_files validContent levelContent
    ∧ build_daily_pool_from_files ('\uFEFF' :: validContent) levelContent = none := by
  constructor
  · unfold build_daily_pool_from_files
    rw [readUtf8Sig_bom, readUtf8Sig_of_parses hl]
  · unfold build_daily_pool_from_files
    show (match parseJson ('\uFEFF' :: validContent) with
      | none => none
      | some jv =>
        match parseJson (readUtf8Sig levelContent) with
        | none => none
        | some jl =>
          match decodeValidRoot jv with
          | none => none
          | some valid =>
            match decodeLevelRoot jl with
            | none => none
            | some level => some (build_daily_pool valid level)) = none
    rw [parseJson_feff]

/-- Witness for the amended C9 at the empty object. -/
theorem pool_files_bom_behavior_witness :
    build_daily_pool_from_files emptyObj ('\uFEFF' :: emptyObj)
      = build_daily_pool_from_files emptyObj emptyObj
    ∧ build_daily_pool_from_files ('\uFEFF' :: emptyObj) emptyObj = none :=
  pool_files_bom_behavior emptyObj emptyObj (by decide)

end WordJourney
